import Mathlib

/-!
# Verification of the ClariDoc ingestion / retrieval core

Shallow embedding of the Python sources of the ClariDoc repository
(`app/retrieval/reranker.py`, `app/ingestion/text_splitter.py`,
`app/services/RAG_service.py`, `app/api/v1/routes.py`,
`app/utils/input_validator.py`), together with proofs settling the
specification claims about them.

Python strings are modelled as `List Char` (Python `len` counts code
points, as does `List.length`); the ASCII fragment of Python's unicode
character classes (`\w`, `\s`, `str.isspace`) is used, which is exact on
the ASCII inputs the claims are about.  Fallible Python code (raised
exceptions) is modelled with `Option` / explicit error outcomes.
-/

namespace ClariDoc

/-! ## Python string primitives -/

/-- Python `str.split(sep)` for a one-character separator: keeps empty
fields, `"".split(",") = [""]`. -/
def pySplit (sep : Char) : List Char → List (List Char)
  | [] => [[]]
  | c :: r =>
    if c = sep then [] :: pySplit sep r
    else
      match pySplit sep r with
      | [] => [[c]]
      | g :: gs => (c :: g) :: gs

/-- The characters stripped by Python's no-argument `str.strip()`
(`str.isspace`), restricted to the Latin-1 range. -/
def isPySpace (c : Char) : Bool :=
  c = ' ' ∨ c = '\t' ∨ c = '\n' ∨ c = '\x0b' ∨ c = '\x0c' ∨ c = '\r' ∨
  c = '\x1c' ∨ c = '\x1d' ∨ c = '\x1e' ∨ c = '\x1f' ∨ c = '\x85' ∨ c = '\xa0'

/-- Python `str.strip(chars)`: drop characters satisfying `p` from both
ends. -/
def pyStripOn (p : Char → Bool) (s : List Char) : List Char :=
  ((s.dropWhile p).reverse.dropWhile p).reverse

/-- Python `str.strip()` (no argument): drop whitespace from both ends. -/
def pyStrip (s : List Char) : List Char :=
  pyStripOn isPySpace s

/-- Value of an ASCII digit character. -/
def digitVal (c : Char) : Nat := c.toNat - '0'.toNat

/-- Digit-sequence part of CPython `int(str)` parsing: one or more ASCII
digits, a single underscore allowed between two digits (`1_000`). -/
def pyDigits (acc : Nat) : List Char → Option Nat
  | [] => some acc
  | '_' :: c :: r => if c.isDigit then pyDigits (acc * 10 + digitVal c) r else none
  | '_' :: [] => none
  | c :: r => if c.isDigit then pyDigits (acc * 10 + digitVal c) r else none

/-- CPython `int(s)` on the ASCII fragment: surrounding whitespace is
ignored, an optional sign precedes the digits; any other shape raises
`ValueError`, modelled as `none`. -/
def pyInt (s : List Char) : Option Int :=
  match pyStrip s with
  | '+' :: c :: r => if c.isDigit then (pyDigits (digitVal c) r).map Int.ofNat else none
  | '-' :: c :: r => if c.isDigit then (pyDigits (digitVal c) r).map (fun n => -(n : Int)) else none
  | c :: r => if c.isDigit then (pyDigits (digitVal c) r).map Int.ofNat else none
  | [] => none

/-- Python list subscription `xs[k]`: non-negative indices from the
front, negative indices wrap from the back, anything else raises
`IndexError` (`none`). -/
def pyIndex {α : Type} (xs : List α) (k : Int) : Option α :=
  if 0 ≤ k then xs.get? k.toNat
  else
    let j : Int := (xs.length : Int) + k
    if 0 ≤ j then xs.get? j.toNat else none

/-! ## `app/retrieval/reranker.py` — `Reranker.rerank_documents`

The LLM chain invocation is external; the response string is the
parameter.  Lines 47–48 of `reranker.py`:

    ranked_indices = [int(i) for i in response.split(",")]
    return [self.retrieved_docs[i-1] for i in ranked_indices]

Any exception raised by `int(...)` or by the subscription propagates
uncaught; a raised exception is modelled by `none`. -/

/-- `Reranker.rerank_documents`, given the retrieved documents and the
model's response text. -/
def rerank_documents {α : Type} (retrieved_docs : List α) (response : List Char) :
    Option (List α) := do
  let ranked_indices ← (pySplit ',' response).mapM pyInt
  ranked_indices.mapM (fun i => pyIndex retrieved_docs (i - 1))

/-! ## `pathlib.PurePosixPath` fragments

`Path(x).name / .stem / .suffix` as used by `input_validator.py` and
`routes.py` (the code runs on a POSIX `Path`: only `'/'` separates
directory components; `'.'` components are dropped at parse time). -/

/-- `PurePosixPath(s).name`: the last non-empty, non-`"."` component. -/
def posixName (s : List Char) : List Char :=
  ((pySplit '/' s).filter (fun p => !(p.isEmpty || p == ['.']))).getLastD []

/-- Index of the last `'.'` (Python `str.rfind('.')`), `none` if absent. -/
def rfindDotAux : List Char → Nat → Option Nat
  | [], _ => none
  | c :: r, i =>
    match rfindDotAux r (i + 1) with
    | some j => some j
    | none => if c = '.' then some i else none

/-- Index of the last `'.'` in a string, `none` if there is none. -/
def rfindDot (s : List Char) : Option Nat := rfindDotAux s 0

/-- `PurePosixPath(s).suffix`: the part of the name from its last dot,
empty when the dot is leading, trailing or absent. -/
def pathSuffix (s : List Char) : List Char :=
  let nm := posixName s
  match rfindDot nm with
  | some i => if 0 < i ∧ i < nm.length - 1 then nm.drop i else []
  | none => []

/-- `PurePosixPath(s).stem`: the name up to (excluding) its suffix. -/
def pathStem (s : List Char) : List Char :=
  let nm := posixName s
  match rfindDot nm with
  | some i => if 0 < i ∧ i < nm.length - 1 then nm.take i else nm
  | none => nm

/-- Python slicing `s[:k]` for a possibly negative bound `k`. -/
def pySliceTo (s : List Char) (k : Int) : List Char :=
  if 0 ≤ k then s.take k.toNat else s.take ((s.length : Int) + k).toNat

/-! ## `app/utils/input_validator.py` -/

/-- The characters kept by `re.sub(r'[^\w\s\-\.]', '', filename)` (ASCII
fragment of the unicode classes `\w` and `\s`). -/
def keepChar (c : Char) : Bool :=
  c.isAlphanum || c == '_' || isPySpace c || c == '-' || c == '.'

/-- Characters removed by `str.strip('. ')`. -/
def isDotSpace (c : Char) : Bool := c == '.' || c == ' '

/-- The intermediate value of `sanitize_filename` after the directory
components are removed, the disallowed characters dropped and the
leading/trailing dots and spaces stripped (lines 21–28 of
`input_validator.py`). -/
def sanitizeStripped (filename : List Char) : List Char :=
  pyStripOn isDotSpace ((posixName filename).filter keepChar)

/-- `input_validator.sanitize_filename` (lines 10–39): strip directory
components, delete characters outside `[\w\s\-.]`, strip `'. '` from the
ends, truncate names longer than 255 characters by slicing the stem to
`255 - len(suffix)` characters, and fall back to `"unnamed_file"` when
nothing is left. -/
def sanitize_filename (filename : List Char) : List Char :=
  let sanitized := sanitizeStripped filename
  let sanitized :=
    if 255 < sanitized.length then
      pySliceTo (pathStem sanitized) ((255 : Int) - (pathSuffix sanitized).length)
        ++ pathSuffix sanitized
    else sanitized
  if sanitized = [] then "unnamed_file".data else sanitized

/-- `input_validator.sanitize_query` (lines 62–87): empty input is
returned as is; otherwise null bytes are removed, the result truncated
to `max_length` characters and whitespace stripped from both ends. -/
def sanitize_query (query : List Char) (max_length : Nat := 1000) : List Char :=
  if query = [] then []
  else pyStrip ((query.filter (fun c => c ≠ '\x00')).take max_length)

/-! ## JSON-style values and Python dictionaries

The metadata dictionaries moved around by `text_splitter.py` and
`RAG_service.py` (pydantic `model_dump` results, the persisted keywords
JSON) hold strings, lists of strings, booleans and `None`. -/

/-- A JSON-style value. -/
inductive JVal where
  | null : JVal
  | b (v : Bool) : JVal
  | s (v : List Char) : JVal
  | l (v : List (List Char)) : JVal
deriving DecidableEq

/-- Python `d.get(key, default)` on an association list (a `dict` with
its keys in insertion order). -/
def dictGet {α : Type} (m : List (List Char × α)) (k : List Char) : Option α :=
  List.lookup k m

/-- Python `d.get(key, default)` with a default. -/
def dictGetD {α : Type} (m : List (List Char × α)) (k : List Char) (d : α) : α :=
  (dictGet m k).getD d

/-- Python `d[key] = v`: update in place if the key exists (keeping its
position), else append. -/
def dictSet {α : Type} : List (List Char × α) → List Char → α → List (List Char × α)
  | [], k, v => [(k, v)]
  | (k', v') :: r, k, v =>
    if k' = k then (k, v) :: r else (k', v') :: dictSet r k v

/-! ## `app/ingestion/text_splitter.py` — the vocabulary merge

Modelled from the spec: `MetadataService.normalize_dict_to_lists` (whose
source is not part of the analysed tree) produces, per §6 of the spec, a
mapping of attribute name to list of string values, so the vocabulary
type is attribute → list of values and the `isinstance(vals, list)`
guard of line 167 always passes on its output. -/

/-- A vocabulary / keywords mapping: attribute name → list of values. -/
abbrev KW := List (List Char × List (List Char))

/-- Line 168 of `text_splitter.py`:
`list(set(known_keywords.get(key, []) + vals))` — set-union of the
existing value list with the new values.  CPython's `set` iteration
order is unspecified; the model keeps the first occurrence of each
value, which agrees with `set` semantics up to ordering. -/
def mergeVals (old new : List (List Char)) : List (List Char) :=
  (old ++ new).dedup

/-- Lines 166–168 of `text_splitter.py`: fold the per-attribute merge
over the reconciled new data. -/
def mergeKW (known_keywords : KW) (new_data : KW) : KW :=
  new_data.foldl
    (fun acc kv => dictSet acc kv.1 (mergeVals (dictGetD acc kv.1 []) kv.2))
    known_keywords

/-! ## `app/services/RAG_service.py` — query-metadata filtering -/

/-- The fixed exclusion list of `create_query_embedding`
(`RAG_service.py` line 133). -/
def excluded_query_keys : List (List Char) :=
  ["obligations".data, "exclusions".data, "notes".data, "added_new_keyword".data]

/-- `RAG_service.create_query_embedding`, lines 131–134: the dict
comprehension dropping the excluded keys from the formatted query
metadata. -/
def filter_query_metadata (formatted_metadata : List (List Char × JVal)) :
    List (List Char × JVal) :=
  formatted_metadata.filter (fun kv => decide (kv.1 ∉ excluded_query_keys))

/-! ## `app/ingestion/text_splitter.py` — `splitting_text.text_splitting`

The batched splitter (lines 104–198).  External collaborators are
parameters of the run environment:
* `extract` — `MetadataExtractor.extractMetadata` (a remote LLM call; as
  a function of its document and known-keywords arguments);
* `normalize` — `MetadataService.normalize_dict_to_lists`;
* `semCheck` — `MetadataService.keyword_sementic_check(new, known, emb)`;
* `splitText` — the text-division behaviour of the external
  `RecursiveCharacterTextSplitter(chunk_size=800, chunk_overlap=100)`;
  `split_documents` copies the parent document's metadata onto every
  produced chunk, which is part of the model itself;
* `uuid` — the `uuid4()` supply, indexed by the order of the calls.

The single keywords JSON file (`self.Keywordsfile_path`) is threaded as
explicit state, and every file read, file write and extraction call is
recorded in an event trace. -/

/-- Python decimal rendering of a natural number, with structural fuel
(any fuel above the number itself yields the digits; see
`natDigits_unfold`). -/
def natDigitsF : Nat → Nat → List Char
  | 0, _ => []
  | fuel + 1, n =>
    if n < 10 then [Char.ofNat (48 + n)]
    else natDigitsF fuel (n / 10) ++ [Char.ofNat (48 + n % 10)]

/-- Python decimal rendering `str(n)` of a natural number. -/
def natDigits (n : Nat) : List Char := natDigitsF (n + 1) n

/-- The f-string `f"{uuid}_p{i}"` of line 191. -/
def chunkId (uuid : List Char) (i : Nat) : List Char :=
  uuid ++ '_' :: 'p' :: natDigits i

/-- Python `sep.join(parts)`. -/
def joinSep (sep : List Char) : List (List Char) → List Char
  | [] => []
  | [x] => x
  | x :: xs => x ++ sep ++ joinSep sep xs

/-- One raw document segment (a langchain `Document` page): its text and
its metadata dict. -/
structure Page where
  page_content : List Char
  meta : List (List Char × JVal)
deriving DecidableEq, Inhabited

/-- The pydantic object returned by one extraction call: `model_dump()`
as an association list (`None` fields as `JVal.null`) plus the
`added_new_keyword` flag. -/
structure MetaRec where
  dump : List (List Char × JVal)
  added_new_keyword : Bool
deriving DecidableEq, Inhabited

/-- `model_dump(exclude_none=True)`. -/
def dumpEN (r : MetaRec) : List (List Char × JVal) :=
  r.dump.filter (fun kv => decide (kv.2 ≠ JVal.null))

/-- The external collaborators of one `text_splitting` run. -/
structure Env where
  extract : Page → KW → MetaRec
  normalize : List (List Char × JVal) → KW
  semCheck : KW → KW → KW
  splitText : List Char → List (List Char)
  uuid : Nat → List Char

/-- Observable events of a run: extraction calls (with the
known-keywords argument), reads and writes of the keywords file (with
the transferred content). -/
inductive Ev where
  | exCall (kw : KW) : Ev
  | fRead (kw : KW) : Ev
  | fWrite (kw : KW) : Ev
deriving DecidableEq, Inhabited

/-- Is the event an extraction call? -/
def isExCall : Ev → Bool
  | Ev.exCall _ => true
  | _ => false

/-- The metadata dict attached to a produced chunk (line 186–193):
`{**page.metadata, **extracted_metadata, "page_no": i, "doc_id": uuid,
"chunk_id": f"{uuid}_p{i}", "type": "text"}`, kept as a structure whose
fields are the distinct parts of that dict literal (the constant
`"type": "text"` entry is omitted). -/
structure ChunkMeta where
  pageMeta : List (List Char × JVal)
  extracted : List (List Char × JVal)
  page_no : Nat
  doc_id : List Char
  chunk_id : List Char
deriving DecidableEq, Inhabited

/-- One produced passage. -/
structure Chunk where
  page_content : List Char
  meta : ChunkMeta
deriving DecidableEq, Inhabited

/-- Lines 176–196: chunk the individual pages of one batch.  `page.get_text()`
raises `AttributeError` on a langchain `Document` and the bare `except`
falls back to `page.page_content`.  Pages whose stripped text is empty
produce nothing (and consume no uuid).  Returns the chunks and the next
uuid-supply index. -/
def pagesChunks (env : Env) (extracted : List (List Char × JVal)) :
    Nat → Nat → List Page → List Chunk × Nat
  | uidx, _, [] => ([], uidx)
  | uidx, s, p :: ps =>
    if pyStrip p.page_content = [] then pagesChunks env extracted uidx (s + 1) ps
    else
      let u := env.uuid uidx
      let cs := (env.splitText p.page_content).map
        (fun t => ⟨t, ⟨p.meta, extracted, s, u, chunkId u s⟩⟩)
      let out := pagesChunks env extracted (uidx + 1) (s + 1) ps
      (cs ++ out.1, out.2)

/-- State and outputs accumulated over the batch loop. -/
structure BatchOut where
  store : KW
  uidx : Nat
  trace : List Ev
  chunks : List Chunk
deriving DecidableEq, Inhabited

/-- The batch loop of lines 130–196 over the post-seed pages: each
iteration takes the next `B` pages, joins their texts with the page-break
marker, re-reads the keywords file, makes one extraction call on the
combined document, merges-and-persists the vocabulary when the novelty
flag is set, and chunks the batch's pages with the batch's
`model_dump(exclude_none=True)` record. -/
def processRestF (env : Env) (B : Nat) :
    Nat → KW → Nat → Nat → List Page → BatchOut
  | _, st, uidx, _, [] => ⟨st, uidx, [], []⟩
  | 0, st, uidx, _, _ => ⟨st, uidx, [], []⟩
  | fuel + 1, st, uidx, s, p :: ps =>
    let bp := (p :: ps).take B
    let combined_text :=
      joinSep ('\n' :: '\n' :: "--- PAGE BREAK ---".data ++ ['\n', '\n'])
        (bp.map (fun q => q.page_content))
    let combined_doc : Page := ⟨combined_text, p.meta⟩
    let known := st
    let mr := env.extract combined_doc known
    let upd :=
      if mr.added_new_keyword then
        let new_data := env.semCheck (env.normalize (dumpEN mr)) known
        let k' := mergeKW known new_data
        (k', [Ev.fWrite k'])
      else (known, ([] : List Ev))
    let extracted := dumpEN mr
    let pc := pagesChunks env extracted uidx s bp
    let out := processRestF env B fuel upd.1 pc.2 (s + bp.length) ((p :: ps).drop B)
    ⟨out.store, out.uidx, Ev.fRead known :: Ev.exCall known :: (upd.2 ++ out.trace),
      pc.1 ++ out.chunks⟩

/-- The batch loop, with just enough fuel for all its iterations (for
`0 < B` each iteration consumes at least one page, see
`processRest_cons`). -/
def processRest (env : Env) (B : Nat) (st : KW) (uidx s : Nat)
    (rest : List Page) : BatchOut :=
  processRestF env B rest.length st uidx s rest

/-- The observable result of one `text_splitting` run. -/
structure RunResult where
  chunks : List Chunk
  trace : List Ev
  store : KW
  keywordsFilePath : List Char
deriving DecidableEq, Inhabited

/-- `splitting_text.text_splitting(doc, batch_size=5)` (lines 104–198).
`doc[0]` on an empty list raises `IndexError`; a missing or non-string
`metadata['source']` raises on line 112; `range(1, len(doc), 0)` raises
`ValueError` — all modelled as `none`.  Otherwise: seed extraction on
page 0 against empty known keywords, `model_dump()` normalized and
written to the keywords file, then the batch loop over the remaining
pages (page 0's own text is never chunked). -/
def text_splitting (env : Env) (doc : List Page) (batch_size : Nat := 5) :
    Option RunResult :=
  match doc with
  | [] => none
  | d0 :: rest =>
    match dictGet d0.meta "source".data with
    | some (JVal.s src) =>
      if 0 < batch_size then
        let filename := (src.filter (fun c => c ≠ '.')).filter (fun c => c ≠ '\\')
        let path := "app/data/".data ++ filename ++ ".json".data
        let mr := env.extract d0 []
        let known := env.normalize mr.dump
        let out := processRest env batch_size known 0 1 rest
        some ⟨out.chunks, Ev.exCall [] :: Ev.fWrite known :: out.trace, out.store, path⟩
      else none
    | _ => none

/-- Number of extraction calls recorded in a trace. -/
def countEx (tr : List Ev) : Nat := tr.countP isExCall

/-- Does the trace contain an extraction call anywhere? -/
def hasEx (tr : List Ev) : Bool := tr.any isExCall

/-- Does the trace contain a file read that is later followed by an
extraction call? -/
def readThenEx : List Ev → Bool
  | [] => false
  | Ev.fRead _ :: r => hasEx r || readThenEx r
  | _ :: r => readThenEx r

/-- Does the trace contain, in this order: an extraction call, then a
read of the keywords file, then another extraction call?  I.e., is the
persisted vocabulary re-read between two extraction calls? -/
def readBetweenExtracts : List Ev → Bool
  | [] => false
  | Ev.exCall _ :: r => readThenEx r
  | _ :: r => readBetweenExtracts r

/-- Adjacency discipline of a trace: every extraction call that is not
the very first event is immediately preceded by a read of the keywords
file returning exactly the vocabulary the call is issued against. -/
def evPrecOk (a b : Ev) : Prop := ∀ kw, b = Ev.exCall kw → a = Ev.fRead kw

/-- The maximal suffix of a string containing no underscore (used to
compare the `f"{uuid}_p{i}"` identifiers). -/
def afterLastUnderscore (l : List Char) : List Char :=
  (l.reverse.takeWhile (fun c => c != '_')).reverse

/-! ## Concrete run fixtures

A concrete instantiation of the external collaborators, used to
evaluate whole `text_splitting` runs on small documents.  The splitter
is a miniature character-window splitter (window 8, overlap 2): a text
longer than one window yields two overlapping pieces, exactly as the
real `RecursiveCharacterTextSplitter(chunk_size=800, chunk_overlap=100)`
behaves on a page longer than one window.  Extraction always returns an
empty record with the novelty flag off, and the uuid supply yields
`"u0", "u1", ...`. -/

/-- Concrete collaborator instantiation for whole-run evaluation. -/
def cEnv : Env where
  extract := fun _ _ => ⟨[], false⟩
  normalize := fun _ => []
  semCheck := fun nd _ => nd
  splitText := fun s => if s.length ≤ 8 then [s] else [s.take 8, s.drop 6]
  uuid := fun n => 'u' :: natDigits n

/-- A page metadata dict holding only the loader's `source` entry. -/
def srcMeta : List (List Char × JVal) := [("source".data, JVal.s "docpdf".data)]

/-- A seed page (page 0 — used only for vocabulary seeding). -/
def cSeed : Page := ⟨"policy seed page".data, srcMeta⟩

/-- A two-page document whose single post-seed page is short. -/
def cDocRead : List Page := [cSeed, ⟨"short".data, srcMeta⟩]

/-- A two-page document whose single post-seed page is longer than one
splitter window, so it is split into two passages. -/
def cDocSplit : List Page := [cSeed, ⟨"abcdefghijkl".data, srcMeta⟩]

/-- A four-page document: three short post-seed pages. -/
def cDoc4 : List Page :=
  [cSeed, ⟨"pg one".data, srcMeta⟩, ⟨"pg two".data, srcMeta⟩,
    ⟨"pg three".data, srcMeta⟩]

/-- The run of `text_splitting` on `cDoc4` with batch size 2. -/
def cRes4 : RunResult := (text_splitting cEnv cDoc4 2).getD default

/-! ## `app/api/v1/routes.py` — the upload and query endpoints

HTTP outcomes of one request; FastAPI/session plumbing is outside the
model, the handlers' control flow is embedded directly. -/

/-- The HTTP-visible outcome of a request. -/
inductive HttpOutcome where
  | ok (body : List Char) : HttpOutcome
  | clientError (code : Nat) (detail : List Char) : HttpOutcome
  | serverError (code : Nat) (detail : List Char) : HttpOutcome
deriving DecidableEq, Inhabited

/-- The ingestion state a session holds for the query endpoint. -/
structure Session where
  document_uploaded : Bool
  vector_store_created : Bool
  document_info : Option (List (List Char × JVal))
deriving DecidableEq, Inhabited

/-- External pipeline stages invoked by `query_document` (lines
149–157); each may raise, which the handler converts to HTTP 500. -/
structure QueryEnv where
  create_query_embedding : List Char → Except Unit Unit
  retrive_documents : List Char → Except Unit Unit
  answer_query : List Char → Except Unit (List Char)

/-- Result of one query request: the HTTP outcome, the session's
ingestion state afterwards, and the pipeline stages actually entered. -/
structure QueryRun where
  outcome : HttpOutcome
  session : Session
  steps : List (List Char)
deriving DecidableEq

/-- `routes.query_document` (lines 128–182): reject when no document is
ingested, sanitize the query, reject an empty sanitized query, then run
embedding → retrieval → answering, mapping any raised error to a
generic HTTP 500 (the top-3 source assembly of lines 158–172 is part of
the answering stage's external work).  The handler never writes the
session's ingestion state. -/
def query_document (env : QueryEnv) (session : Session) (query : List Char) :
    QueryRun :=
  if !session.document_uploaded || !session.vector_store_created then
    ⟨HttpOutcome.clientError 400
      "No document uploaded or processed for this session".data, session, []⟩
  else
    let sanitized_query := sanitize_query query
    if sanitized_query = [] then
      ⟨HttpOutcome.clientError 400 "Query cannot be empty".data, session, []⟩
    else
      match env.create_query_embedding sanitized_query with
      | Except.error _ =>
        ⟨HttpOutcome.serverError 500 "Error processing query".data, session,
          ["create_query_embedding".data]⟩
      | Except.ok _ =>
        match env.retrive_documents sanitized_query with
        | Except.error _ =>
          ⟨HttpOutcome.serverError 500 "Error processing query".data, session,
            ["create_query_embedding".data, "retrive_documents".data]⟩
        | Except.ok _ =>
          match env.answer_query sanitized_query with
          | Except.error _ =>
            ⟨HttpOutcome.serverError 500 "Error processing query".data, session,
              ["create_query_embedding".data, "retrive_documents".data,
                "answer_query".data]⟩
          | Except.ok answer =>
            ⟨HttpOutcome.ok answer, session,
              ["create_query_embedding".data, "retrive_documents".data,
                "answer_query".data]⟩

/-- The application settings consulted by `upload_document`. -/
structure Settings where
  allowed_file_types : List (List Char)
  max_file_size : Nat
deriving DecidableEq, Inhabited

/-- The upload request's file part. -/
structure UploadFileReq where
  filename : List Char
  size : Nat
deriving DecidableEq, Inhabited

/-- Result of one upload request: the HTTP outcome and whether this
request set the session's `document_uploaded` flag (line 100, reached
only on the success path). -/
structure UploadRun where
  outcome : HttpOutcome
  document_uploaded : Bool
deriving DecidableEq, Inhabited

/-- The local names bound in `upload_document`'s scope when line 81
(`tempfile.NamedTemporaryFile(delete=False, suffix=file_exension)`)
is evaluated: the parameters of the handler and the locals assigned on
lines 57–77. -/
def upload_locals : List (List Char) :=
  ["session_id".data, "file".data, "doc_type".data, "session".data,
    "settings".data, "safe_filename".data, "file_extension".data,
    "upload_dir".data]

/-- Python name resolution: referencing a name absent from the local
scope raises `NameError`. -/
def pyEvalName (locals_ : List (List Char)) (n : List Char) : Except Unit Unit :=
  if n ∈ locals_ then Except.ok () else Except.error ()

/-- `routes.upload_document` (lines 49–126): sanitize the filename,
reject a disallowed extension (400), reject an oversized file (400),
then enter the `try` block, whose temporary-file step evaluates the
name `file_exension` (the validated extension was bound as
`file_extension`); `proceed` is the remainder of the `try` block
(saving, `RAGService` ingestion, session updates), run only if that
evaluation succeeds.  Any exception is caught by `except Exception` and
reported as HTTP 500 `"Error processing document"`. -/
def upload_document (settings : Settings) (file : UploadFileReq)
    (proceed : Unit → UploadRun) : UploadRun :=
  let safe_filename := sanitize_filename file.filename
  let file_extension := (pathSuffix safe_filename).map Char.toLower
  if file_extension ∉ settings.allowed_file_types then
    ⟨HttpOutcome.clientError 400
      ("File type ".data ++ file_extension ++ " is not allowed".data), false⟩
  else if settings.max_file_size < file.size then
    ⟨HttpOutcome.clientError 400
      ("File size too large. Maximum size: ".data ++
        natDigits settings.max_file_size ++ " bytes".data), false⟩
  else
    match pyEvalName upload_locals "file_exension".data with
    | Except.error _ =>
      ⟨HttpOutcome.serverError 500 "Error processing document".data, false⟩
    | Except.ok u => proceed u

/-- A concrete query pipeline whose every stage succeeds. -/
def cQEnv : QueryEnv :=
  ⟨fun _ => Except.ok (), fun _ => Except.ok (), fun _ => Except.ok "ans".data⟩

/-- Concrete settings: PDF uploads up to 1000 bytes. -/
def cSettings : Settings := ⟨[".pdf".data], 1000⟩

/-- A concrete valid upload request. -/
def cUploadFile : UploadFileReq := ⟨"report.pdf".data, 10⟩

/-- A remainder of the upload `try` block that would succeed and mark
the session as ingested — were it ever reached. -/
def cProceed : Unit → UploadRun := fun _ => ⟨HttpOutcome.ok "ingested".data, true⟩

end ClariDoc

namespace ClariDoc

/-- In-range projection step: mapping `pyIndex` over indices that are
all within `[1, N]` succeeds and picks the `(i-1)`-th document. -/
theorem mapM_pyIndex_in_range {α : Type} [Inhabited α] (docs : List α) :
    ∀ l : List Int, (∀ i ∈ l, 1 ≤ i ∧ i ≤ docs.length) →
      l.mapM (fun i => pyIndex docs (i - 1)) =
        some (l.map (fun i => docs.getD (i.toNat - 1) default))
  | [], _ => rfl
  | i :: l, h => by
    obtain ⟨⟨h1, h2⟩, hl⟩ := List.forall_mem_cons.mp h
    have hidx : pyIndex docs (i - 1) = some (docs.getD (i.toNat - 1) default) := by
      have hge : 0 ≤ i - 1 := by omega
      have htn : (i - 1).toNat = i.toNat - 1 := by omega
      have hlt : i.toNat - 1 < docs.length := by omega
      simp only [pyIndex, if_pos hge, htn]
      rw [List.get?_eq_getElem?, List.getD_eq_getElem?_getD,
        List.getElem?_eq_getElem hlt]
      rfl
    rw [List.mapM_cons, hidx, mapM_pyIndex_in_range docs l hl]
    rfl

end ClariDoc

namespace ClariDoc

/-- C5: for candidates `[A,B,C]` the response `"2,1,3"` yields `[B,A,C]`;
in general, when the comma-separated response parses to integers that
all lie in `[1, N]`, `rerank_documents` returns the input list
re-projected in the order the indices are listed (duplicates
materialized once per occurrence). -/
theorem rerank_documents_projects_in_range_indices {α : Type} [Inhabited α]
    (docs : List α) (response : List Char) (l : List Int)
    (hp : (pySplit ',' response).mapM pyInt = some l)
    (hr : ∀ i ∈ l, 1 ≤ i ∧ i ≤ docs.length) :
    rerank_documents docs response =
      some (l.map (fun i => docs.getD (i.toNat - 1) default)) := by
  unfold rerank_documents
  rw [hp]
  exact mapM_pyIndex_in_range docs l hr

/-- Witness for C5: `[A,B,C]` with response `"2,1,3"` reranks to `[B,A,C]`. -/
theorem rerank_documents_projects_in_range_indices_witness :
    rerank_documents ["A", "B", "C"] "2,1,3".data = some ["B", "A", "C"] :=
  (rerank_documents_projects_in_range_indices ["A", "B", "C"] "2,1,3".data
    [2, 1, 3] (by decide) (by decide)).trans (by decide)

/-- Every character of every field of `pySplit sep s` is a character of
`s`. -/
theorem pySplit_chars (sep : Char) :
    ∀ (s : List Char), ∀ g ∈ pySplit sep s, ∀ c ∈ g, c ∈ s
  | [] => by
    intro g hg c hc
    simp only [pySplit, List.mem_singleton] at hg
    subst hg
    simp at hc
  | a :: r => by
    intro g hg c hc
    by_cases ha : a = sep
    · rw [pySplit, if_pos ha] at hg
      rcases List.mem_cons.mp hg with h | h
      · subst h; simp at hc
      · exact List.mem_cons_of_mem a (pySplit_chars sep r g h c hc)
    · rw [pySplit, if_neg ha] at hg
      cases hps : pySplit sep r with
      | nil =>
        rw [hps] at hg
        simp only [List.mem_singleton] at hg
        subst hg
        rw [List.mem_singleton] at hc
        subst hc
        exact List.mem_cons_self _ _
      | cons g' gs =>
        rw [hps] at hg
        rcases List.mem_cons.mp hg with h | h
        · subst h
          rcases List.mem_cons.mp hc with h' | h'
          · subst h'; exact List.mem_cons_self _ _
          · have hg' : g' ∈ pySplit sep r := by rw [hps]; exact List.mem_cons_self _ _
            exact List.mem_cons_of_mem a (pySplit_chars sep r g' hg' c h')
        · have hgm : g ∈ pySplit sep r := by rw [hps]; exact List.mem_cons_of_mem _ h
          exact List.mem_cons_of_mem a (pySplit_chars sep r g hgm c hc)

/-- The last field (with default) of a non-empty list is one of its
elements. -/
theorem getLastD_mem_of_ne_nil {α : Type} :
    ∀ {l : List α}, l ≠ [] → ∀ d : α, l.getLastD d ∈ l
  | [], h, _ => absurd rfl h
  | [a], _, d => by simp [List.getLastD]
  | a :: b :: t, _, d => by
    rw [List.getLastD_cons]
    exact List.mem_cons_of_mem a (getLastD_mem_of_ne_nil (List.cons_ne_nil b t) a)

/-- Characters of `posixName s` come from `s`. -/
theorem posixName_chars {s : List Char} {c : Char} (h : c ∈ posixName s) : c ∈ s := by
  unfold posixName at h
  cases hL : (pySplit '/' s).filter (fun p => !(p.isEmpty || p == ['.'])) with
  | nil => rw [hL] at h; simp at h
  | cons x xs =>
    rw [hL] at h
    have hmem : (x :: xs).getLastD [] ∈ x :: xs :=
      getLastD_mem_of_ne_nil (List.cons_ne_nil x xs) []
    have hmem2 : (x :: xs).getLastD [] ∈
        (pySplit '/' s).filter (fun p => !(p.isEmpty || p == ['.'])) := by
      rw [hL]; exact hmem
    exact pySplit_chars '/' s _ (List.mem_of_mem_filter hmem2) c h

/-- Characters survive `pyStripOn` only if present in the input. -/
theorem mem_pyStripOn {p : Char → Bool} {s : List Char} {c : Char}
    (h : c ∈ pyStripOn p s) : c ∈ s := by
  unfold pyStripOn at h
  rw [List.mem_reverse] at h
  have h1 : c ∈ (s.dropWhile p).reverse := (List.dropWhile_sublist _).mem h
  rw [List.mem_reverse] at h1
  exact (List.dropWhile_sublist _).mem h1

/-- Characters of `pathSuffix s` come from `s`. -/
theorem mem_pathSuffix {s : List Char} {c : Char} (h : c ∈ pathSuffix s) : c ∈ s := by
  simp only [pathSuffix] at h
  split at h
  · split at h
    · exact posixName_chars ((List.drop_sublist _ _).mem h)
    · simp at h
  · simp at h

/-- Characters of `pathStem s` come from `s`. -/
theorem mem_pathStem {s : List Char} {c : Char} (h : c ∈ pathStem s) : c ∈ s := by
  simp only [pathStem] at h
  split at h
  · split at h
    · exact posixName_chars ((List.take_sublist _ _).mem h)
    · exact posixName_chars h
  · exact posixName_chars h

/-- Characters of `pySliceTo s k` come from `s`. -/
theorem mem_pySliceTo {s : List Char} {k : Int} {c : Char}
    (h : c ∈ pySliceTo s k) : c ∈ s := by
  unfold pySliceTo at h
  split at h <;> exact (List.take_sublist _ _).mem h

/-- Every character of `sanitizeStripped fn` passed the keep-filter. -/
theorem mem_sanitizeStripped {fn : List Char} {c : Char}
    (h : c ∈ sanitizeStripped fn) : keepChar c = true :=
  (List.mem_filter.mp (mem_pyStripOn h)).2

/-- C1 (code behaviour at the failing input): on candidates `[A,B,C]`,
the out-of-range response `"2,1,5"` makes `rerank_documents` raise an
uncaught `IndexError` (modelled `none`) instead of falling back to the
original order; a non-integer token (`"2,x"`) raises `ValueError`; and
the out-of-`[1,N]` index `0` neither raises nor falls back but silently
wraps to the last element via Python negative indexing. -/
theorem rerank_documents_malformed_output_raises :
    rerank_documents ["A", "B", "C"] "2,1,5".data = none ∧
    rerank_documents ["A", "B", "C"] "2,x".data = none ∧
    rerank_documents ["A", "B", "C"] "0".data = some ["C"] := by decide

set_option maxRecDepth 100000 in
/-- C10 (counterexample): on the input `"a." ++ "b"*256` the truncation
branch of `sanitize_filename` computes `stem[:255-len(ext)]` with a
negative bound, so it returns the bare 257-character extension — longer
than the claimed 255-character limit. -/
theorem sanitize_filename_length_counterexample :
    255 < (sanitize_filename ('a' :: '.' :: List.replicate 256 'b')).length := by
  decide

/-- C10 (amended): `sanitize_filename` always returns a non-empty string
without directory separators; its length is at most 255 whenever the
dot-suffix of the stripped sanitized name is itself at most 255
characters (when the suffix alone exceeds 255 characters the result is
that entire suffix and exceeds the limit). -/
theorem sanitize_filename_props (fn : List Char) :
    sanitize_filename fn ≠ [] ∧ '/' ∉ sanitize_filename fn ∧
      ((pathSuffix (sanitizeStripped fn)).length ≤ 255 →
        (sanitize_filename fn).length ≤ 255) := by
  have hslash : '/' ∉ sanitizeStripped fn := by
    intro hmem
    have := mem_sanitizeStripped hmem
    simp [keepChar, isPySpace] at this
  simp only [sanitize_filename]
  set s2 := sanitizeStripped fn with hs2
  by_cases h255 : 255 < s2.length
  · rw [if_pos h255]
    set trunc := pySliceTo (pathStem s2) ((255 : Int) - (pathSuffix s2).length)
      ++ pathSuffix s2 with htr
    by_cases hnil : trunc = []
    · rw [if_pos hnil]
      refine ⟨by decide, by decide, fun _ => by decide⟩
    · rw [if_neg hnil]
      refine ⟨hnil, ?_, ?_⟩
      · intro hmem
        rw [htr, List.mem_append] at hmem
        rcases hmem with hmem | hmem
        · exact hslash (mem_pathStem (mem_pySliceTo hmem))
        · exact hslash (mem_pathSuffix hmem)
      · intro hext
        rw [htr, List.length_append]
        have hk : (0 : Int) ≤ (255 : Int) - (pathSuffix s2).length := by omega
        have hlen : (pySliceTo (pathStem s2)
            ((255 : Int) - (pathSuffix s2).length)).length ≤
            255 - (pathSuffix s2).length := by
          rw [pySliceTo, if_pos hk]
          have : ((255 : Int) - (pathSuffix s2).length).toNat =
              255 - (pathSuffix s2).length := by omega
          rw [this, List.length_take]
          omega
        omega
  · rw [if_neg h255]
    by_cases hnil : s2 = []
    · rw [if_pos hnil]
      refine ⟨by decide, by decide, fun _ => by decide⟩
    · rw [if_neg hnil]
      exact ⟨hnil, hslash, fun _ => by omega⟩

/-- Witness for the amended C10 on the input `"docs/report v1.pdf"`. -/
theorem sanitize_filename_props_witness :
    sanitize_filename "docs/report v1.pdf".data ≠ [] ∧
      '/' ∉ sanitize_filename "docs/report v1.pdf".data ∧
      (sanitize_filename "docs/report v1.pdf".data).length ≤ 255 := by
  have h := sanitize_filename_props "docs/report v1.pdf".data
  exact ⟨h.1, h.2.1, h.2.2 (by decide)⟩

end ClariDoc

namespace ClariDoc

/-- C3: the per-attribute merge `list(set(old + new))` only grows the
value-set, leaves its values unique, and is idempotent: merging values
that are all already present keeps the value-set's size unchanged. -/
theorem mergeVals_grows_unique_idempotent (old new : List (List Char)) :
    old.toFinset ⊆ (mergeVals old new).toFinset ∧
      (mergeVals old new).Nodup ∧
      ((∀ v ∈ new, v ∈ old) →
        (mergeVals old new).toFinset.card = old.toFinset.card) := by
  have htf : (mergeVals old new).toFinset = old.toFinset ∪ new.toFinset := by
    ext v; simp [mergeVals]
  refine ⟨?_, List.nodup_dedup _, ?_⟩
  · rw [htf]; exact Finset.subset_union_left
  · intro hsub
    rw [htf, Finset.union_eq_left.mpr ?_]
    intro v hv
    rw [List.mem_toFinset] at hv ⊢
    exact hsub v hv

/-- Witness for C3 at `old = ["a","b"]`, `new = ["b"]`. -/
theorem mergeVals_grows_unique_idempotent_witness :
    (["a".data, "b".data] : List (List Char)).toFinset ⊆
        (mergeVals ["a".data, "b".data] ["b".data]).toFinset ∧
      (mergeVals ["a".data, "b".data] ["b".data]).Nodup ∧
      (mergeVals ["a".data, "b".data] ["b".data]).toFinset.card =
        (["a".data, "b".data] : List (List Char)).toFinset.card := by
  have h := mergeVals_grows_unique_idempotent ["a".data, "b".data] ["b".data]
  exact ⟨h.1, h.2.1, h.2.2 (by decide)⟩

/-- C7: the query-metadata filter removes exactly the keys of the fixed
exclusion list (`obligations`, `exclusions`, `notes`,
`added_new_keyword`): looking up an excluded key in the filtered dict
yields nothing, and looking up any other key yields exactly its value in
the unfiltered dict. -/
theorem filter_query_metadata_spec (m : List (List Char × JVal)) (k : List Char) :
    (k ∈ excluded_query_keys → dictGet (filter_query_metadata m) k = none) ∧
      (k ∉ excluded_query_keys → dictGet (filter_query_metadata m) k = dictGet m k) := by
  induction m with
  | nil => exact ⟨fun _ => rfl, fun _ => rfl⟩
  | cons kv r ih =>
    obtain ⟨k', v⟩ := kv
    by_cases hk' : k' ∈ excluded_query_keys
    · have hdrop : filter_query_metadata ((k', v) :: r) = filter_query_metadata r := by
        simp [filter_query_metadata, hk']
      refine ⟨fun hk => ?_, fun hk => ?_⟩
      · rw [hdrop]; exact ih.1 hk
      · have hne : k ≠ k' := fun h => hk (h ▸ hk')
        rw [hdrop, ih.2 hk]
        simp [dictGet, List.lookup, beq_false_of_ne hne]
    · have hkeep : filter_query_metadata ((k', v) :: r) =
          (k', v) :: filter_query_metadata r := by
        simp [filter_query_metadata, hk']
      refine ⟨fun hk => ?_, fun hk => ?_⟩
      · have hne : k ≠ k' := fun h => hk' (h ▸ hk)
        rw [hkeep]
        simp only [dictGet, List.lookup, beq_false_of_ne hne]
        exact ih.1 hk
      · rw [hkeep]
        by_cases heq : k = k'
        · subst heq; simp [dictGet, List.lookup]
        · simp only [dictGet, List.lookup, beq_false_of_ne heq]
          exact ih.2 hk

/-- Witness for C7 on
`{"coverage_type": ["life"], "notes": "x", "added_new_keyword": true}`. -/
theorem filter_query_metadata_spec_witness :
    dictGet (filter_query_metadata
        [("coverage_type".data, JVal.l ["life".data]),
         ("notes".data, JVal.s "x".data),
         ("added_new_keyword".data, JVal.b true)]) "notes".data = none ∧
      dictGet (filter_query_metadata
        [("coverage_type".data, JVal.l ["life".data]),
         ("notes".data, JVal.s "x".data),
         ("added_new_keyword".data, JVal.b true)]) "added_new_keyword".data = none ∧
      dictGet (filter_query_metadata
        [("coverage_type".data, JVal.l ["life".data]),
         ("notes".data, JVal.s "x".data),
         ("added_new_keyword".data, JVal.b true)]) "coverage_type".data =
        some (JVal.l ["life".data]) := by
  refine ⟨(filter_query_metadata_spec _ _).1 (by decide),
    (filter_query_metadata_spec _ _).1 (by decide),
    ((filter_query_metadata_spec _ _).2 (by decide)).trans (by decide)⟩

end ClariDoc

namespace ClariDoc

/-- `natDigitsF` is fuel-independent once the fuel exceeds the number. -/
theorem natDigitsF_congr : ∀ f1 : Nat, ∀ f2 n : Nat, n < f1 → n < f2 →
    natDigitsF f1 n = natDigitsF f2 n
  | 0, _, n, h1, _ => absurd h1 (Nat.not_lt_zero n)
  | _ + 1, 0, n, _, h2 => absurd h2 (Nat.not_lt_zero n)
  | f1 + 1, f2 + 1, n, h1, h2 => by
    simp only [natDigitsF]
    by_cases hn : n < 10
    · simp [hn]
    · have hd : n / 10 < n := Nat.div_lt_self (by omega) (by omega)
      rw [if_neg hn, if_neg hn,
        natDigitsF_congr f1 f2 (n / 10) (by omega) (by omega)]

/-- Unfolding equation for `natDigits`. -/
theorem natDigits_unfold (n : Nat) :
    natDigits n = if n < 10 then [Char.ofNat (48 + n)]
      else natDigits (n / 10) ++ [Char.ofNat (48 + n % 10)] := by
  by_cases hn : n < 10
  · simp [natDigits, natDigitsF, hn]
  · have hd : n / 10 < n := Nat.div_lt_self (by omega) (by omega)
    rw [natDigits, natDigits, natDigitsF, if_neg hn,
      natDigitsF_congr n (n / 10 + 1) (n / 10) (by omega) (by omega), if_neg hn]

/-- Decimal renderings are never empty. -/
theorem natDigits_ne_nil (n : Nat) : natDigits n ≠ [] := by
  rw [natDigits_unfold]
  split
  · simp
  · simp

/-- The digit characters `'0'`–`'9'` are pairwise distinct. -/
theorem digitChar_inj : ∀ m < 10, ∀ n < 10,
    Char.ofNat (48 + m) = Char.ofNat (48 + n) → m = n := by decide

/-- Decimal digits contain no underscore. -/
theorem natDigits_no_underscore (n : Nat) : ∀ c ∈ natDigits n, (c != '_') = true := by
  induction n using Nat.strong_induction_on with
  | _ n ih =>
    rw [natDigits_unfold]
    have h9 : ∀ m < 10, (Char.ofNat (48 + m) != '_') = true := by decide
    split
    · intro c hc
      rw [List.mem_singleton] at hc
      subst hc
      exact h9 _ (by omega)
    · intro c hc
      rcases List.mem_append.mp hc with h | h
      · exact ih (n / 10) (Nat.div_lt_self (by omega) (by omega)) c h
      · rw [List.mem_singleton] at h
        subst h
        exact h9 _ (Nat.mod_lt n (by omega))

/-- `natDigits` is injective: decimal renderings determine the number. -/
theorem natDigits_inj : ∀ m n : Nat, natDigits m = natDigits n → m = n := by
  intro m
  induction m using Nat.strong_induction_on with
  | _ m ih =>
    intro n h
    rw [natDigits_unfold m, natDigits_unfold n] at h
    by_cases hm : m < 10 <;> by_cases hn : n < 10
    · rw [if_pos hm, if_pos hn] at h
      exact digitChar_inj m hm n hn (List.singleton_inj.mp h)
    · rw [if_pos hm, if_neg hn] at h
      have hlen := congrArg List.length h
      simp only [List.length_singleton, List.length_append, List.length_cons] at hlen
      have hnil : natDigits (n / 10) = [] := List.length_eq_zero.mp (by omega)
      exact absurd hnil (natDigits_ne_nil _)
    · rw [if_neg hm, if_pos hn] at h
      have hlen := congrArg List.length h
      simp only [List.length_singleton, List.length_append, List.length_cons] at hlen
      have hnil : natDigits (m / 10) = [] := List.length_eq_zero.mp (by omega)
      exact absurd hnil (natDigits_ne_nil _)
    · rw [if_neg hm, if_neg hn] at h
      have hp := List.append_inj' h (by simp)
      have h1 : m / 10 = n / 10 :=
        ih (m / 10) (Nat.div_lt_self (by omega) (by omega)) (n / 10) hp.1
      have h2 : m % 10 = n % 10 :=
        digitChar_inj (m % 10) (Nat.mod_lt m (by omega)) (n % 10)
          (Nat.mod_lt n (by omega)) (List.singleton_inj.mp hp.2)
      omega

/-- `takeWhile` passes over a prefix whose elements all satisfy the
predicate. -/
theorem takeWhile_append_all {α : Type} {p : α → Bool} :
    ∀ l1 l2 : List α, (∀ c ∈ l1, p c = true) →
      (l1 ++ l2).takeWhile p = l1 ++ l2.takeWhile p
  | [], l2, _ => rfl
  | a :: l1, l2, h => by
    have ha : p a = true := h a (List.mem_cons_self a l1)
    simp only [List.cons_append, List.takeWhile_cons, ha, if_true]
    rw [takeWhile_append_all l1 l2 (fun c hc => h c (List.mem_cons_of_mem a hc))]

/-- The underscore-free suffix of `A ++ "_p" ++ s` is `"p" ++ s`. -/
theorem afterLastUnderscore_spec (A s : List Char)
    (hs : ∀ c ∈ s, (c != '_') = true) :
    afterLastUnderscore (A ++ '_' :: 'p' :: s) = 'p' :: s := by
  unfold afterLastUnderscore
  rw [List.reverse_append]
  have hrev : ('_' :: 'p' :: s).reverse = s.reverse ++ ['p', '_'] := by simp
  rw [hrev, List.append_assoc]
  rw [takeWhile_append_all s.reverse (['p', '_'] ++ A.reverse)
    (fun c hc => hs c (List.mem_reverse.mp hc))]
  have : (['p', '_'] ++ A.reverse).takeWhile (fun c => c != '_') = ['p'] := by
    simp [List.takeWhile_cons]
  rw [this]
  simp

/-- Two chunk identifiers `f"{uuid}_p{i}"` agree only if the page
numbers agree, whatever the uuids are. -/
theorem chunkId_inj_page {u1 u2 : List Char} {i j : Nat}
    (h : chunkId u1 i = chunkId u2 j) : i = j := by
  have h1 := congrArg afterLastUnderscore h
  rw [chunkId, chunkId,
    afterLastUnderscore_spec u1 (natDigits i) (natDigits_no_underscore i),
    afterLastUnderscore_spec u2 (natDigits j) (natDigits_no_underscore j)] at h1
  exact natDigits_inj i j ((List.cons_inj_right 'p').mp h1)

end ClariDoc

namespace ClariDoc

/-- Every chunk built from one batch's pages carries the batch's
extracted record, a page number inside the batch's page range, and a
chunk identifier of the shape `f"{uuid}_p{page_no}"`. -/
theorem pagesChunks_spec (env : Env) (E : List (List Char × JVal)) :
    ∀ (bp : List Page) (uidx s : Nat), ∀ c ∈ (pagesChunks env E uidx s bp).1,
      c.meta.extracted = E ∧ s ≤ c.meta.page_no ∧ c.meta.page_no < s + bp.length ∧
      c.meta.chunk_id = chunkId c.meta.doc_id c.meta.page_no
  | [], uidx, s => by
    intro c hc
    simp [pagesChunks] at hc
  | p :: ps, uidx, s => by
    intro c hc
    simp only [pagesChunks] at hc
    split at hc
    · obtain ⟨h1, h2, h3, h4⟩ := pagesChunks_spec env E ps uidx (s + 1) c hc
      exact ⟨h1, by omega, by simp only [List.length_cons]; omega, h4⟩
    · rcases List.mem_append.mp hc with hm | hm
      · obtain ⟨t, _, rfl⟩ := List.mem_map.mp hm
        refine ⟨rfl, le_refl s, ?_, rfl⟩
        simp only [List.length_cons]
        omega
      · obtain ⟨h1, h2, h3, h4⟩ := pagesChunks_spec env E ps (uidx + 1) (s + 1) c hm
        exact ⟨h1, by omega, by simp only [List.length_cons]; omega, h4⟩

/-- A file read leaves the extraction-call count unchanged. -/
theorem countEx_cons_read (kw : KW) (tr : List Ev) :
    countEx (Ev.fRead kw :: tr) = countEx tr := by
  simp [countEx, List.countP_cons, isExCall]

/-- A file write leaves the extraction-call count unchanged. -/
theorem countEx_cons_write (kw : KW) (tr : List Ev) :
    countEx (Ev.fWrite kw :: tr) = countEx tr := by
  simp [countEx, List.countP_cons, isExCall]

/-- An extraction call increments the extraction-call count. -/
theorem countEx_cons_ex (kw : KW) (tr : List Ev) :
    countEx (Ev.exCall kw :: tr) = countEx tr + 1 := by
  simp [countEx, List.countP_cons, isExCall]

/-- Peeling one batch off the ceiling division of `len` by `B`. -/
theorem ceil_div_batch_step (B len : Nat) (hB : 0 < B) (hlen : 0 < len) :
    (len + B - 1) / B = 1 + (len - B + B - 1) / B := by
  rcases le_or_lt len B with hle | hlt
  · have h1 : len + B - 1 = (len - 1) + B := by omega
    have h2 : len - B = 0 := by omega
    rw [h1, Nat.add_div_right _ hB, h2]
    have h3 : (len - 1) / B = 0 := Nat.div_eq_of_lt (by omega)
    have h4 : (0 + B - 1) / B = 0 := Nat.div_eq_of_lt (by omega)
    omega
  · have h1 : len + B - 1 = ((len - B) + B - 1) + B := by omega
    rw [h1, Nat.add_div_right _ hB]
    omega

/-- The batch loop makes exactly `⌈len/B⌉` extraction calls for `len`
remaining pages. -/
theorem processRestF_countEx (env : Env) (B : Nat) (hB : 0 < B) :
    ∀ (fuel : Nat) (rest : List Page) (st : KW) (uidx s : Nat), rest.length ≤ fuel →
      countEx (processRestF env B fuel st uidx s rest).trace =
        (rest.length + B - 1) / B := by
  intro fuel
  induction fuel with
  | zero =>
    intro rest st uidx s hf
    have hrest : rest = [] := List.length_eq_zero.mp (by omega)
    subst hrest
    simp only [processRestF, countEx, List.countP_nil, List.length_nil]
    exact (Nat.div_eq_of_lt (by omega)).symm
  | succ fuel ih =>
    intro rest st uidx s hf
    cases rest with
    | nil =>
      simp only [processRestF, countEx, List.countP_nil, List.length_nil]
      exact (Nat.div_eq_of_lt (by omega)).symm
    | cons p ps =>
      have hf' : ((p :: ps).drop B).length ≤ fuel := by
        simp only [List.length_cons] at hf
        simp only [List.length_drop, List.length_cons]
        omega
      simp only [processRestF]
      split_ifs with hflag
      · rw [List.singleton_append, countEx_cons_read, countEx_cons_ex,
          countEx_cons_write, ih _ _ _ _ hf']
        simp only [List.length_drop, List.length_cons]
        rw [ceil_div_batch_step B (ps.length + 1) hB (by omega)]
        omega
      · rw [List.nil_append, countEx_cons_read, countEx_cons_ex, ih _ _ _ _ hf']
        simp only [List.length_drop, List.length_cons]
        rw [ceil_div_batch_step B (ps.length + 1) hB (by omega)]
        omega

end ClariDoc

namespace ClariDoc

/-- Chunks produced by the batch loop have page numbers in the remaining
page range and chunk identifiers of the shape `f"{uuid}_p{page_no}"`. -/
theorem processRestF_chunks_spec (env : Env) (B : Nat) :
    ∀ (fuel : Nat) (rest : List Page) (st : KW) (uidx s : Nat),
      ∀ c ∈ (processRestF env B fuel st uidx s rest).chunks,
        s ≤ c.meta.page_no ∧ c.meta.page_no < s + rest.length ∧
        c.meta.chunk_id = chunkId c.meta.doc_id c.meta.page_no := by
  intro fuel
  induction fuel with
  | zero =>
    intro rest st uidx s c hc
    cases rest <;> simp [processRestF] at hc
  | succ fuel ih =>
    intro rest st uidx s c hc
    cases rest with
    | nil => simp [processRestF] at hc
    | cons p ps =>
      simp only [processRestF] at hc
      rcases List.mem_append.mp hc with hm | hm
      · obtain ⟨h1, h2, h3, h4⟩ := pagesChunks_spec env _ _ _ _ c hm
        have hbl : ((p :: ps).take B).length = min B (p :: ps).length :=
          List.length_take B (p :: ps)
        refine ⟨h2, ?_, h4⟩
        simp only [List.length_cons] at hbl ⊢
        omega
      · obtain ⟨h1, h2, h3⟩ := ih _ _ _ _ c hm
        have hbl : ((p :: ps).take B).length = min B (p :: ps).length :=
          List.length_take B (p :: ps)
        have hdl : ((p :: ps).drop B).length = (p :: ps).length - B :=
          List.length_drop B (p :: ps)
        refine ⟨by omega, ?_, h3⟩
        simp only [List.length_cons] at hbl hdl h2 ⊢
        omega

/-- All chunks of one batch share the batch's extracted metadata record:
two chunks whose page numbers fall in the same batch interval (relative
to the start page `s` and batch size `B`) carry equal `extracted`
fields. -/
theorem processRestF_chunks_extracted (env : Env) (B : Nat) (hB : 0 < B) :
    ∀ (fuel : Nat) (rest : List Page) (st : KW) (uidx s : Nat),
      ∀ c1 ∈ (processRestF env B fuel st uidx s rest).chunks,
      ∀ c2 ∈ (processRestF env B fuel st uidx s rest).chunks,
        (c1.meta.page_no - s) / B = (c2.meta.page_no - s) / B →
        c1.meta.extracted = c2.meta.extracted := by
  intro fuel
  induction fuel with
  | zero =>
    intro rest st uidx s c1 hc1 c2 hc2 hdiv
    cases rest <;> simp [processRestF] at hc1
  | succ fuel ih =>
    intro rest st uidx s c1 hc1 c2 hc2 hdiv
    cases rest with
    | nil => simp [processRestF] at hc1
    | cons p ps =>
      have hbl : ((p :: ps).take B).length = min B (p :: ps).length :=
        List.length_take B (p :: ps)
      have hdl : ((p :: ps).drop B).length = (p :: ps).length - B :=
        List.length_drop B (p :: ps)
      simp only [processRestF] at hc1 hc2
      rcases List.mem_append.mp hc1 with hm1 | hm1 <;>
        rcases List.mem_append.mp hc2 with hm2 | hm2
      · -- both in the current batch: both carry the batch record
        obtain ⟨he1, _, _, _⟩ := pagesChunks_spec env _ _ _ _ c1 hm1
        obtain ⟨he2, _, _, _⟩ := pagesChunks_spec env _ _ _ _ c2 hm2
        rw [he1, he2]
      · -- c1 in the current batch, c2 in a later batch: the batch
        -- intervals differ, contradicting the hypothesis
        exfalso
        obtain ⟨_, hr1a, hr1b, _⟩ := pagesChunks_spec env _ _ _ _ c1 hm1
        obtain ⟨hr2a, hr2b, _⟩ := processRestF_chunks_spec env B fuel _ _ _ _ c2 hm2
        simp only [List.length_cons] at hbl hdl hr1b hr2a hr2b
        have hlen : B < ps.length + 1 := by omega
        have h1 : (c1.meta.page_no - s) / B = 0 := Nat.div_eq_of_lt (by omega)
        have h2 : B ≤ c2.meta.page_no - s := by omega
        have h3 : 0 < (c2.meta.page_no - s) / B := Nat.div_pos h2 hB
        omega
      · exfalso
        obtain ⟨_, hr2a, hr2b, _⟩ := pagesChunks_spec env _ _ _ _ c2 hm2
        obtain ⟨hr1a, hr1b, _⟩ := processRestF_chunks_spec env B fuel _ _ _ _ c1 hm1
        simp only [List.length_cons] at hbl hdl hr2b hr1a hr1b
        have hlen : B < ps.length + 1 := by omega
        have h2 : (c2.meta.page_no - s) / B = 0 := Nat.div_eq_of_lt (by omega)
        have h1 : B ≤ c1.meta.page_no - s := by omega
        have h3 : 0 < (c1.meta.page_no - s) / B := Nat.div_pos h1 hB
        omega
      · -- both in later batches: shift the origin by one batch
        obtain ⟨hr1a, hr1b, _⟩ := processRestF_chunks_spec env B fuel _ _ _ _ c1 hm1
        obtain ⟨hr2a, hr2b, _⟩ := processRestF_chunks_spec env B fuel _ _ _ _ c2 hm2
        simp only [List.length_cons] at hbl hdl hr1a hr1b hr2a hr2b
        have hlen : B < ps.length + 1 := by omega
        have hbleq : ((p :: ps).take B).length = B := by omega
        rw [hbleq] at hm1 hm2
        have hd1 : c1.meta.page_no - s = (c1.meta.page_no - (s + B)) + B := by omega
        have hd2 : c2.meta.page_no - s = (c2.meta.page_no - (s + B)) + B := by omega
        rw [hd1, hd2, Nat.add_div_right _ hB, Nat.add_div_right _ hB] at hdiv
        exact ih _ _ _ _ c1 hm1 c2 hm2 (by omega)

end ClariDoc

namespace ClariDoc

/-- Prefixed chain discipline of the batch loop's trace: whatever event
precedes it, every extraction call in the loop's trace is immediately
preceded by a read of the keywords file carrying exactly the vocabulary
the call is issued against. -/
theorem processRestF_chain (env : Env) (B : Nat) :
    ∀ (fuel : Nat) (rest : List Page) (st : KW) (uidx s : Nat) (x : Ev),
      List.Chain' evPrecOk (x :: (processRestF env B fuel st uidx s rest).trace) := by
  intro fuel
  induction fuel with
  | zero =>
    intro rest st uidx s x
    cases rest <;> simp [processRestF, evPrecOk]
  | succ fuel ih =>
    intro rest st uidx s x
    cases rest with
    | nil => simp [processRestF, evPrecOk]
    | cons p ps =>
      simp only [processRestF]
      split_ifs with hflag
      · rw [List.singleton_append]
        refine List.chain'_cons.mpr ⟨fun kw hkw => absurd hkw (by simp), ?_⟩
        refine List.chain'_cons.mpr ⟨fun kw hkw => by injection hkw with h'; rw [h'], ?_⟩
        refine List.chain'_cons.mpr ⟨fun kw hkw => absurd hkw (by simp), ?_⟩
        exact ih _ _ _ _ _
      · rw [List.nil_append]
        refine List.chain'_cons.mpr ⟨fun kw hkw => absurd hkw (by simp), ?_⟩
        refine List.chain'_cons.mpr ⟨fun kw hkw => by injection hkw with h'; rw [h'], ?_⟩
        exact ih _ _ _ _ _

end ClariDoc

namespace ClariDoc

/-- Shape of a successful `text_splitting` run: the document is
non-empty, its first page has a string `source`, the batch size is
positive, and the result is the seed events followed by the batch
loop's outputs. -/
theorem text_splitting_some_eq {env : Env} {doc : List Page} {B : Nat}
    {res : RunResult} (h : text_splitting env doc B = some res) :
    ∃ d0 rest src, doc = d0 :: rest ∧
      dictGet d0.meta "source".data = some (JVal.s src) ∧ 0 < B ∧
      res = ⟨(processRest env B (env.normalize (env.extract d0 []).dump) 0 1 rest).chunks,
        Ev.exCall [] :: Ev.fWrite (env.normalize (env.extract d0 []).dump) ::
          (processRest env B (env.normalize (env.extract d0 []).dump) 0 1 rest).trace,
        (processRest env B (env.normalize (env.extract d0 []).dump) 0 1 rest).store,
        "app/data/".data ++ ((src.filter (fun c => c ≠ '.')).filter
          (fun c => c ≠ '\\')) ++ ".json".data⟩ := by
  cases doc with
  | nil => simp [text_splitting] at h
  | cons d0 rest =>
    simp only [text_splitting] at h
    split at h
    · rename_i src heq
      split at h
      · rename_i hB
        simp only [Option.some.injEq] at h
        exact ⟨d0, rest, src, rfl, heq, hB, h.symm⟩
      · simp at h
    · simp at h

end ClariDoc

namespace ClariDoc

/-- C4: a successful batched run on a document of `N` post-seed pages
with batch size `B` makes exactly `1 + ⌈N/B⌉` extraction calls (the one
seed call plus `⌈N/B⌉` calls for the post-seed pages), and any two
passages whose originating pages lie in the same batch carry the same
extracted metadata record. -/
theorem text_splitting_call_count_and_batch_metadata
    (env : Env) (doc : List Page) (B : Nat) (res : RunResult)
    (h : text_splitting env doc B = some res) :
    countEx res.trace = 1 + ((doc.length - 1) + B - 1) / B ∧
      ∀ c1 ∈ res.chunks, ∀ c2 ∈ res.chunks,
        (c1.meta.page_no - 1) / B = (c2.meta.page_no - 1) / B →
        c1.meta.extracted = c2.meta.extracted := by
  obtain ⟨d0, rest, src, rfl, hsrc, hB, hres⟩ := text_splitting_some_eq h
  subst hres
  constructor
  · show countEx (Ev.exCall [] :: Ev.fWrite _ :: _) = _
    rw [countEx_cons_ex, countEx_cons_write]
    rw [show processRest env B (env.normalize (env.extract d0 []).dump) 0 1 rest =
      processRestF env B rest.length (env.normalize (env.extract d0 []).dump) 0 1 rest
      from rfl]
    rw [processRestF_countEx env B hB rest.length rest _ 0 1 (le_refl _)]
    simp only [List.length_cons, Nat.add_sub_cancel]
    omega
  · intro c1 hc1 c2 hc2 hdiv
    exact processRestF_chunks_extracted env B hB rest.length rest _ 0 1 c1 hc1 c2 hc2 hdiv

/-- Witness for C4: on the concrete four-page document with batch size
2, the run makes three extraction calls (one seed + `⌈3/2⌉ = 2`), and
the passages of pages 1 and 2 — the first batch — share their extracted
record. -/
theorem text_splitting_call_count_and_batch_metadata_witness :
    countEx cRes4.trace = 1 + ((cDoc4.length - 1) + 2 - 1) / 2 ∧
      (cRes4.chunks.getD 0 default).meta.extracted =
        (cRes4.chunks.getD 1 default).meta.extracted := by
  have h := text_splitting_call_count_and_batch_metadata cEnv cDoc4 2 cRes4 (by decide)
  exact ⟨h.1, h.2 _ (by decide) _ (by decide) (by decide)⟩

/-- C2 (counterexample): a post-seed page longer than one splitter
window produces two distinct passages carrying the *same* identifier
`"u0_p1"` — the `chunk_id` is minted once per page, before splitting,
and `split_documents` copies it onto every chunk of the page, so
passage identifiers are not unique within a segment. -/
theorem text_splitting_duplicate_chunk_id_counterexample :
    (text_splitting cEnv cDocSplit 5).map
        (fun r => r.chunks.map (fun c => c.meta.chunk_id)) =
      some ["u0_p1".data, "u0_p1".data] ∧
    ¬ (["u0_p1".data, "u0_p1".data] : List (List Char)).Nodup := by
  constructor
  · decide
  · decide

/-- C2 (amended): passages originating from *distinct* segments always
have distinct identifiers (the segment index is encoded in the
identifier `f"{uuid}_p{page_no}"`), while all passages of one segment
share that segment's single identifier. -/
theorem text_splitting_chunk_ids_differ_across_segments
    (env : Env) (doc : List Page) (B : Nat) (res : RunResult)
    (h : text_splitting env doc B = some res) :
    ∀ c1 ∈ res.chunks, ∀ c2 ∈ res.chunks,
      c1.meta.page_no ≠ c2.meta.page_no → c1.meta.chunk_id ≠ c2.meta.chunk_id := by
  obtain ⟨d0, rest, src, rfl, hsrc, hB, hres⟩ := text_splitting_some_eq h
  subst hres
  intro c1 hc1 c2 hc2 hne heq
  obtain ⟨_, _, hid1⟩ := processRestF_chunks_spec env B rest.length rest _ 0 1 c1 hc1
  obtain ⟨_, _, hid2⟩ := processRestF_chunks_spec env B rest.length rest _ 0 1 c2 hc2
  rw [hid1, hid2] at heq
  exact hne (chunkId_inj_page heq)

/-- Witness for the amended C2: in the concrete four-page run the first
two passages come from pages 1 and 2 and their identifiers differ. -/
theorem text_splitting_chunk_ids_differ_across_segments_witness :
    (cRes4.chunks.getD 0 default).meta.chunk_id ≠
      (cRes4.chunks.getD 1 default).meta.chunk_id := by
  exact text_splitting_chunk_ids_differ_across_segments cEnv cDoc4 2 cRes4
    (by decide) _ (by decide) _ (by decide) (by decide)

/-- C6 (counterexample): already in a two-page run the trace is
`[exCall {}, fWrite kw, fRead kw, exCall kw]`: the keywords file *is*
read back from storage between the seed extraction call and the next
one, contradicting the never-re-read claim. -/
theorem text_splitting_rereads_storage_counterexample :
    (text_splitting cEnv cDocRead 5).map (fun r => r.trace) =
        some [Ev.exCall [], Ev.fWrite [], Ev.fRead [], Ev.exCall []] ∧
      (text_splitting cEnv cDocRead 5).map
          (fun r => readBetweenExtracts r.trace) = some true := by
  constructor
  · decide
  · decide

/-- C6 (amended): in every successful run, each post-seed extraction
call is immediately preceded in the trace by a read of the persisted
keywords file, and the vocabulary passed to the call is exactly the one
just read — the in-process value is re-loaded from storage before every
batch rather than cached across extraction calls. -/
theorem text_splitting_rereads_before_every_later_extraction
    (env : Env) (doc : List Page) (B : Nat) (res : RunResult)
    (h : text_splitting env doc B = some res) :
    List.Chain' evPrecOk res.trace := by
  obtain ⟨d0, rest, src, rfl, hsrc, hB, hres⟩ := text_splitting_some_eq h
  subst hres
  show List.Chain' evPrecOk (Ev.exCall [] :: Ev.fWrite _ :: _)
  refine List.chain'_cons.mpr ⟨fun kw hkw => absurd hkw (by simp), ?_⟩
  exact processRestF_chain env B rest.length rest _ 0 1 (Ev.fWrite _)

/-- Witness for the amended C6 on the concrete four-page run. -/
theorem text_splitting_rereads_before_every_later_extraction_witness :
    List.Chain' evPrecOk cRes4.trace :=
  text_splitting_rereads_before_every_later_extraction cEnv cDoc4 2 cRes4 (by decide)

end ClariDoc

namespace ClariDoc

/-- C8: whenever the query sanitizes to the empty string, the query
endpoint answers with a 400 client error (either the missing-document
rejection or the empty-query rejection, both issued before any pipeline
work), no embedding / retrieval / answering stage is entered, and the
session's ingestion state is unchanged. -/
theorem query_document_rejects_empty_sanitized_query (env : QueryEnv)
    (session : Session) (query : List Char)
    (hq : sanitize_query query = []) :
    ((query_document env session query).outcome =
        HttpOutcome.clientError 400
          "No document uploaded or processed for this session".data ∨
      (query_document env session query).outcome =
        HttpOutcome.clientError 400 "Query cannot be empty".data) ∧
      (query_document env session query).session = session ∧
      (query_document env session query).steps = [] := by
  simp only [query_document]
  by_cases h1 : (!session.document_uploaded || !session.vector_store_created) = true
  · rw [if_pos h1]
    exact ⟨Or.inl rfl, rfl, rfl⟩
  · rw [if_neg h1, if_pos hq]
    exact ⟨Or.inr rfl, rfl, rfl⟩

/-- Witness for C8: a whitespace-only query against a fully ingested
session is rejected 400 with no pipeline stage entered. -/
theorem query_document_rejects_empty_sanitized_query_witness :
    ((query_document cQEnv ⟨true, true, none⟩ "   ".data).outcome =
        HttpOutcome.clientError 400
          "No document uploaded or processed for this session".data ∨
      (query_document cQEnv ⟨true, true, none⟩ "   ".data).outcome =
        HttpOutcome.clientError 400 "Query cannot be empty".data) ∧
      (query_document cQEnv ⟨true, true, none⟩ "   ".data).session =
        ⟨true, true, none⟩ ∧
      (query_document cQEnv ⟨true, true, none⟩ "   ".data).steps = [] :=
  query_document_rejects_empty_sanitized_query cQEnv ⟨true, true, none⟩
    "   ".data (by decide)

/-- C9: the upload handler can never ingest a document: no input makes
it return a success outcome or set the session's uploaded flag, and
every request that passes the extension and size validations ends in
the generic 500 processing error, because the `try` block's
temporary-file step references the undefined name `file_exension`
(line 81 of `routes.py`) and the resulting `NameError` is caught by the
blanket `except Exception`. -/
theorem upload_document_never_ingests (settings : Settings)
    (file : UploadFileReq) (proceed : Unit → UploadRun) :
    (∀ body, (upload_document settings file proceed).outcome ≠
        HttpOutcome.ok body) ∧
      (upload_document settings file proceed).document_uploaded = false ∧
      ((pathSuffix (sanitize_filename file.filename)).map Char.toLower ∈
          settings.allowed_file_types →
        file.size ≤ settings.max_file_size →
        (upload_document settings file proceed).outcome =
          HttpOutcome.serverError 500 "Error processing document".data) := by
  have hname : pyEvalName upload_locals "file_exension".data =
      Except.error () := rfl
  simp only [upload_document]
  by_cases hext : (pathSuffix (sanitize_filename file.filename)).map Char.toLower ∈
      settings.allowed_file_types
  · rw [if_neg (fun hcon => hcon hext)]
    by_cases hsz : settings.max_file_size < file.size
    · rw [if_pos hsz]
      exact ⟨fun body h => HttpOutcome.noConfusion h, rfl,
        fun _ hsize => by omega⟩
    · rw [if_neg hsz, hname]
      exact ⟨fun body h => HttpOutcome.noConfusion h, rfl, fun _ _ => rfl⟩
  · rw [if_pos hext]
    exact ⟨fun body h => HttpOutcome.noConfusion h, rfl,
      fun hmem _ => absurd hmem hext⟩

/-- Witness for C9: a valid 10-byte `report.pdf` upload — extension
allowed, size within bounds — still ends in the 500 processing error,
the success outcome of the unreachable remainder notwithstanding. -/
theorem upload_document_never_ingests_witness :
    (upload_document cSettings cUploadFile cProceed).outcome ≠
        HttpOutcome.ok "ingested".data ∧
      (upload_document cSettings cUploadFile cProceed).document_uploaded = false ∧
      (upload_document cSettings cUploadFile cProceed).outcome =
        HttpOutcome.serverError 500 "Error processing document".data := by
  have h := upload_document_never_ingests cSettings cUploadFile cProceed
  exact ⟨h.1 _, h.2.1, h.2.2 (by decide) (by decide)⟩

end ClariDoc
